import Mathlib

/-!
Verification of the recursive radix-2 FFT in `fft_recursivo.py`.

The Python function is

  def fft(x):
      N = len(x)
      if N <= 1:
          return x
      elif N % 2 != 0:
          raise ValueError("Tamanho da entrada deve ser potência de 2.")
      X_even = fft(x[::2])
      X_odd = fft(x[1::2])
      factor = np.exp(-2j * np.pi * np.arange(N) / N)
      return np.concatenate([X_even + factor[:N // 2] * X_odd,
                             X_even - factor[:N // 2] * X_odd])

We embed it shallowly over exact complex arithmetic: lists of `ℂ`,
`Except String` for the raised `ValueError`, `evens`/`odds` for the
stride slices `x[::2]` / `x[1::2]`, and `factor N` for the twiddle
vector `np.exp(-2j*np.pi*np.arange(N)/N)`.
-/

namespace FFT

open Complex Finset

/-- The message of the `ValueError` raised by the Python code. -/
def errMsg : String := "Tamanho da entrada deve ser potência de 2."

/-- `evens l` is the stride slice `l[::2]`: elements at positions 0,2,4,…. -/
def evens {α : Type} : List α → List α
  | [] => []
  | [a] => [a]
  | a :: _ :: rest => a :: evens rest

/-- `odds l` is the stride slice `l[1::2]`: elements at positions 1,3,5,…. -/
def odds {α : Type} : List α → List α
  | [] => []
  | [_] => []
  | _ :: b :: rest => b :: odds rest

theorem length_evens {α : Type} : ∀ l : List α, (evens l).length = (l.length + 1) / 2
  | [] => by simp [evens]
  | [_] => by simp [evens]
  | _ :: _ :: rest => by
      simp only [evens, List.length_cons, length_evens rest]
      omega

theorem length_odds {α : Type} : ∀ l : List α, (odds l).length = l.length / 2
  | [] => by simp [odds]
  | [_] => by simp [odds]
  | _ :: _ :: rest => by
      simp only [odds, List.length_cons, length_odds rest]
      omega

theorem getD_evens {α : Type} (d : α) :
    ∀ (l : List α) (n : ℕ), (evens l).getD n d = l.getD (2 * n) d
  | [], n => by simp [evens]
  | [a], n => by
      cases n with
      | zero => rfl
      | succ m => simp [evens, List.getD, Nat.mul_succ]
  | a :: b :: rest, 0 => rfl
  | a :: b :: rest, n + 1 => by
      have h : 2 * (n + 1) = 2 * n + 1 + 1 := by ring
      rw [h]
      simpa [evens, List.getD_cons_succ] using getD_evens d rest n

theorem getD_odds {α : Type} (d : α) :
    ∀ (l : List α) (n : ℕ), (odds l).getD n d = l.getD (2 * n + 1) d
  | [], n => by simp [odds]
  | [a], n => by cases n <;> simp [odds, List.getD]
  | a :: b :: rest, 0 => rfl
  | a :: b :: rest, n + 1 => by
      have h : 2 * (n + 1) + 1 = 2 * n + 1 + 1 + 1 := by ring
      rw [h]
      simpa [odds, List.getD_cons_succ] using getD_odds d rest n

/-- The twiddle vector `np.exp(-2j * np.pi * np.arange(N) / N)`:
entry `k` is `exp(-2πi·k/N)`. -/
noncomputable def factor (N : ℕ) : List ℂ :=
  (List.range N).map fun k : ℕ =>
    Complex.exp (-2 * (Real.pi : ℂ) * Complex.I * (k : ℂ) / (N : ℂ))

theorem length_factor (N : ℕ) : (factor N).length = N := by
  rw [factor, List.length_map, List.length_range]

/-- Shallow embedding of the Python `fft`: returns the transformed list,
or `Except.error errMsg` where the Python raises `ValueError`. -/
noncomputable def fft (x : List ℂ) : Except String (List ℂ) :=
  if _h1 : x.length ≤ 1 then .ok x
  else if _h2 : x.length % 2 ≠ 0 then .error errMsg
  else
    (fft (evens x)).bind fun Xe =>
      (fft (odds x)).bind fun Xo =>
        .ok (List.zipWith (· + ·) Xe
               (List.zipWith (· * ·) ((factor x.length).take (x.length / 2)) Xo) ++
             List.zipWith (· - ·) Xe
               (List.zipWith (· * ·) ((factor x.length).take (x.length / 2)) Xo))
termination_by x.length
decreasing_by
  · rw [length_evens]; omega
  · rw [length_odds]; omega

/-- `dft x` is the textbook discrete Fourier transform from the spec:
`X[j] = Σ_{n=0}^{N-1} x[n] · exp(-2πi·j·n/N)` for `j = 0..N-1`. -/
noncomputable def dft (x : List ℂ) : List ℂ :=
  (List.range x.length).map fun j : ℕ =>
    ∑ n ∈ Finset.range x.length,
      x.getD n 0 * Complex.exp (-2 * (Real.pi : ℂ) * Complex.I * (j : ℂ) * (n : ℂ) / (x.length : ℂ))

theorem length_dft (x : List ℂ) : (dft x).length = x.length := by
  rw [dft, List.length_map, List.length_range]

theorem fft_base {x : List ℂ} (h : x.length ≤ 1) : fft x = .ok x := by
  unfold fft
  simp [h]

theorem fft_nil : fft [] = .ok [] := fft_base (by simp)

theorem fft_singleton (c : ℂ) : fft [c] = .ok [c] := fft_base (by simp)

theorem fft_odd {x : List ℂ} (h1 : 1 < x.length) (h2 : x.length % 2 = 1) :
    fft x = .error errMsg := by
  unfold fft
  rw [dif_neg (by omega), dif_pos (by omega)]

theorem fft_even_step {x : List ℂ} (h1 : 1 < x.length) (h2 : x.length % 2 = 0) :
    fft x =
      (fft (evens x)).bind fun Xe =>
        (fft (odds x)).bind fun Xo =>
          .ok (List.zipWith (· + ·) Xe
                 (List.zipWith (· * ·) ((factor x.length).take (x.length / 2)) Xo) ++
               List.zipWith (· - ·) Xe
                 (List.zipWith (· * ·) ((factor x.length).take (x.length / 2)) Xo)) := by
  rw [fft]
  rw [dif_neg (by omega), dif_neg (by omega)]

theorem except_bind_ok {ε α β : Type} (a : α) (f : α → Except ε β) :
    (Except.ok a : Except ε α).bind f = f a := rfl

theorem except_bind_error {ε α β : Type} (e : ε) (f : α → Except ε β) :
    (Except.error e : Except ε α).bind f = Except.error e := rfl

/-- The twiddle exponential `twExp t = exp(-2πi·t)`, a proof-layer
abbreviation for the exponentials appearing in `factor` and `dft`. -/
noncomputable def twExp (t : ℂ) : ℂ :=
  Complex.exp (-2 * (Real.pi : ℂ) * Complex.I * t)

theorem twExp_add (s t : ℂ) : twExp (s + t) = twExp s * twExp t := by
  rw [twExp, twExp, twExp, ← Complex.exp_add]
  congr 1
  ring

theorem twExp_zero : twExp 0 = 1 := by
  rw [twExp]
  simp

theorem twExp_nat (m : ℕ) : twExp (m : ℂ) = 1 := by
  rw [twExp]
  have h : -2 * (Real.pi : ℂ) * Complex.I * (m : ℂ) =
      (((-m : ℤ) : ℂ)) * (2 * (Real.pi : ℂ) * Complex.I) := by
    push_cast
    ring
  rw [h, Complex.exp_int_mul_two_pi_mul_I]

theorem twExp_half : twExp (1 / 2 : ℂ) = -1 := by
  rw [twExp]
  have h : -2 * (Real.pi : ℂ) * Complex.I * (1 / 2 : ℂ) = -((Real.pi : ℂ) * Complex.I) := by
    ring
  rw [h, Complex.exp_neg, Complex.exp_pi_mul_I]
  norm_num

theorem sum_range_two_mul {β : Type} [AddCommMonoid β] (M : ℕ) (f : ℕ → β) :
    ∑ n ∈ Finset.range (2 * M), f n =
      ∑ m ∈ Finset.range M, f (2 * m) + ∑ m ∈ Finset.range M, f (2 * m + 1) := by
  induction M with
  | zero => simp
  | succ m ih =>
      have h : 2 * (m + 1) = 2 * m + 1 + 1 := by ring
      rw [h, Finset.sum_range_succ, Finset.sum_range_succ,
        Finset.sum_range_succ, Finset.sum_range_succ, ih]
      abel

theorem list_ext_getD (l1 l2 : List ℂ) (h : l1.length = l2.length)
    (he : ∀ n, n < l1.length → l1.getD n 0 = l2.getD n 0) : l1 = l2 := by
  apply List.ext_getElem h
  intro i h1 h2
  have hi := he i h1
  rwa [List.getD_eq_getElem, List.getD_eq_getElem] at hi

theorem getD_zipWith (f : ℂ → ℂ → ℂ) (l1 l2 : List ℂ) (M i : ℕ)
    (h1 : l1.length = M) (h2 : l2.length = M) (hi : i < M) :
    (List.zipWith f l1 l2).getD i 0 = f (l1.getD i 0) (l2.getD i 0) := by
  rw [List.getD_eq_getElem, List.getD_eq_getElem, List.getD_eq_getElem, List.getElem_zipWith]
  all_goals simp [h1, h2]
  omega

theorem dft_getD (x : List ℂ) (j : ℕ) (hj : j < x.length) :
    (dft x).getD j 0 =
      ∑ n ∈ Finset.range x.length,
        x.getD n 0 * twExp ((j : ℂ) * (n : ℂ) / (x.length : ℂ)) := by
  rw [List.getD_eq_getElem _ _ (by rwa [length_dft])]
  simp only [dft, List.getElem_map, List.getElem_range]
  apply Finset.sum_congr rfl
  intro n _
  have harg : -2 * (Real.pi : ℂ) * Complex.I * (j : ℂ) * (n : ℂ) / (x.length : ℂ) =
      -2 * (Real.pi : ℂ) * Complex.I * ((j : ℂ) * (n : ℂ) / (x.length : ℂ)) := by
    ring
  rw [twExp, harg]

theorem factor_take_getD (N M k : ℕ) (hMN : M ≤ N) (hk : k < M) :
    ((factor N).take M).getD k 0 = twExp ((k : ℂ) / (N : ℂ)) := by
  have hlt : k < ((factor N).take M).length := by
    rw [List.length_take, length_factor]
    omega
  rw [List.getD_eq_getElem _ _ hlt]
  simp only [List.getElem_take, factor, List.getElem_map, List.getElem_range]
  have harg : -2 * (Real.pi : ℂ) * Complex.I * (k : ℂ) / (N : ℂ) =
      -2 * (Real.pi : ℂ) * Complex.I * ((k : ℂ) / (N : ℂ)) := by
    ring
  rw [twExp, harg]

theorem dft_sum_split (x : List ℂ) (M : ℕ) (hM : 0 < M) (j : ℕ) :
    ∑ n ∈ Finset.range (2 * M), x.getD n 0 * twExp ((j : ℂ) * (n : ℂ) / ((2 * M : ℕ) : ℂ)) =
      (∑ m ∈ Finset.range M, (evens x).getD m 0 * twExp ((j : ℂ) * (m : ℂ) / (M : ℂ))) +
        twExp ((j : ℂ) / ((2 * M : ℕ) : ℂ)) *
          ∑ m ∈ Finset.range M, (odds x).getD m 0 * twExp ((j : ℂ) * (m : ℂ) / (M : ℂ)) := by
  have hM0 : (M : ℂ) ≠ 0 := Nat.cast_ne_zero.mpr hM.ne'
  rw [sum_range_two_mul]
  congr 1
  · apply Finset.sum_congr rfl
    intro m _
    rw [← getD_evens]
    have harg : (j : ℂ) * ((2 * m : ℕ) : ℂ) / ((2 * M : ℕ) : ℂ) =
        (j : ℂ) * (m : ℂ) / (M : ℂ) := by
      push_cast
      rw [div_eq_div_iff (mul_ne_zero two_ne_zero hM0) hM0]
      ring
    rw [harg]
  · rw [Finset.mul_sum]
    apply Finset.sum_congr rfl
    intro m _
    rw [← getD_odds]
    have harg : (j : ℂ) * ((2 * m + 1 : ℕ) : ℂ) / ((2 * M : ℕ) : ℂ) =
        (j : ℂ) * (m : ℂ) / (M : ℂ) + (j : ℂ) / ((2 * M : ℕ) : ℂ) := by
      push_cast
      rw [div_add_div _ _ hM0 (mul_ne_zero two_ne_zero hM0),
        div_eq_div_iff (mul_ne_zero two_ne_zero hM0)
          (mul_ne_zero hM0 (mul_ne_zero two_ne_zero hM0))]
      ring
    rw [harg, twExp_add]
    ring

theorem twExp_period (j m M : ℕ) (hM : 0 < M) :
    twExp (((M + j : ℕ) : ℂ) * (m : ℂ) / (M : ℂ)) = twExp ((j : ℂ) * (m : ℂ) / (M : ℂ)) := by
  have hM0 : (M : ℂ) ≠ 0 := Nat.cast_ne_zero.mpr hM.ne'
  have harg : ((M + j : ℕ) : ℂ) * (m : ℂ) / (M : ℂ) =
      ((m : ℕ) : ℂ) + (j : ℂ) * (m : ℂ) / (M : ℂ) := by
    push_cast
    rw [add_mul, add_div, mul_comm (M : ℂ) (m : ℂ), mul_div_assoc, div_self hM0, mul_one]
  rw [harg, twExp_add, twExp_nat, one_mul]

theorem twExp_half_shift (j M : ℕ) (hM : 0 < M) :
    twExp (((M + j : ℕ) : ℂ) / ((2 * M : ℕ) : ℂ)) = -twExp ((j : ℂ) / ((2 * M : ℕ) : ℂ)) := by
  have hM0 : (M : ℂ) ≠ 0 := Nat.cast_ne_zero.mpr hM.ne'
  have harg : ((M + j : ℕ) : ℂ) / ((2 * M : ℕ) : ℂ) =
      (1 / 2 : ℂ) + (j : ℂ) / ((2 * M : ℕ) : ℂ) := by
    push_cast
    rw [add_div]
    congr 1
    rw [div_eq_div_iff (mul_ne_zero two_ne_zero hM0) two_ne_zero]
    ring
  rw [harg, twExp_add, twExp_half]
  ring

/-- The butterfly (Cooley–Tukey) decomposition of the DFT: for even length
`2·M` the DFT is the combine step applied to the DFTs of the two slices. -/
theorem dft_even_split (x : List ℂ) (M : ℕ) (hM : 0 < M) (hlen : x.length = 2 * M) :
    dft x =
      List.zipWith (· + ·) (dft (evens x))
          (List.zipWith (· * ·) ((factor x.length).take (x.length / 2)) (dft (odds x))) ++
        List.zipWith (· - ·) (dft (evens x))
          (List.zipWith (· * ·) ((factor x.length).take (x.length / 2)) (dft (odds x))) := by
  have hE : (evens x).length = M := by rw [length_evens, hlen]; omega
  have hO : (odds x).length = M := by rw [length_odds, hlen]; omega
  have hdE : (dft (evens x)).length = M := by rw [length_dft, hE]
  have hdO : (dft (odds x)).length = M := by rw [length_dft, hO]
  have hfl : ((factor x.length).take (x.length / 2)).length = M := by
    rw [List.length_take, length_factor, hlen]
    omega
  have hzipMul :
      (List.zipWith (· * ·) ((factor x.length).take (x.length / 2)) (dft (odds x))).length = M := by
    rw [List.length_zipWith, hfl, hdO]
    omega
  have hzipAdd :
      (List.zipWith (· + ·) (dft (evens x))
        (List.zipWith (· * ·) ((factor x.length).take (x.length / 2)) (dft (odds x)))).length = M := by
    rw [List.length_zipWith, hdE, hzipMul]
    omega
  have hzipSub :
      (List.zipWith (· - ·) (dft (evens x))
        (List.zipWith (· * ·) ((factor x.length).take (x.length / 2)) (dft (odds x)))).length = M := by
    rw [List.length_zipWith, hdE, hzipMul]
    omega
  have hfentry : ∀ j, j < M →
      ((factor x.length).take (x.length / 2)).getD j 0 = twExp ((j : ℂ) / ((2 * M : ℕ) : ℂ)) := by
    intro j hj
    have h1 : x.length / 2 = M := by rw [hlen]; omega
    rw [factor_take_getD x.length (x.length / 2) j (Nat.div_le_self _ _) (by omega)]
    rw [hlen]
  have hEentry : ∀ j, j < M →
      (dft (evens x)).getD j 0 =
        ∑ m ∈ Finset.range M, (evens x).getD m 0 * twExp ((j : ℂ) * (m : ℂ) / (M : ℂ)) := by
    intro j hj
    rw [dft_getD (evens x) j (by rw [hE]; omega), hE]
  have hOentry : ∀ j, j < M →
      (dft (odds x)).getD j 0 =
        ∑ m ∈ Finset.range M, (odds x).getD m 0 * twExp ((j : ℂ) * (m : ℂ) / (M : ℂ)) := by
    intro j hj
    rw [dft_getD (odds x) j (by rw [hO]; omega), hO]
  apply list_ext_getD
  · rw [length_dft, List.length_append, hzipAdd, hzipSub, hlen]
    omega
  · intro j hj
    rw [length_dft, hlen] at hj
    rw [dft_getD x j (by omega)]
    conv_lhs => rw [hlen]
    rw [dft_sum_split x M hM j]
    by_cases hjM : j < M
    · rw [List.getD_append _ _ _ _ (by rw [hzipAdd]; omega)]
      rw [getD_zipWith _ _ _ M j hdE hzipMul hjM]
      rw [getD_zipWith _ _ _ M j hfl hdO hjM]
      rw [hfentry j hjM, hEentry j hjM, hOentry j hjM]
    · obtain ⟨j2, rfl⟩ : ∃ j2, j = M + j2 := ⟨j - M, by omega⟩
      rw [List.getD_append_right _ _ _ _ (by rw [hzipAdd]; omega)]
      rw [hzipAdd]
      have hidx : M + j2 - M = j2 := by omega
      rw [hidx]
      have hj2M : j2 < M := by omega
      rw [getD_zipWith _ _ _ M j2 hdE hzipMul hj2M]
      rw [getD_zipWith _ _ _ M j2 hfl hdO hj2M]
      rw [hfentry j2 hj2M, hEentry j2 hj2M, hOentry j2 hj2M]
      rw [twExp_half_shift j2 M hM]
      have hper : ∀ m ∈ Finset.range M,
          (evens x).getD m 0 * twExp (((M + j2 : ℕ) : ℂ) * (m : ℂ) / (M : ℂ)) =
            (evens x).getD m 0 * twExp ((j2 : ℂ) * (m : ℂ) / (M : ℂ)) := by
        intro m _
        rw [twExp_period j2 m M hM]
      have hper2 : ∀ m ∈ Finset.range M,
          (odds x).getD m 0 * twExp (((M + j2 : ℕ) : ℂ) * (m : ℂ) / (M : ℂ)) =
            (odds x).getD m 0 * twExp ((j2 : ℂ) * (m : ℂ) / (M : ℂ)) := by
        intro m _
        rw [twExp_period j2 m M hM]
      rw [Finset.sum_congr rfl hper, Finset.sum_congr rfl hper2]
      ring

theorem dft_singleton (a : ℂ) : dft [a] = [a] := by
  simp [dft, List.range_succ, Finset.sum_range_one]

/-- Cooley–Tukey correctness: on any input of power-of-two length the
recursive `fft` succeeds and returns exactly the `dft` of the input. -/
theorem fft_eq_dft : ∀ (k : ℕ) (x : List ℂ), x.length = 2 ^ k → fft x = .ok (dft x) := by
  intro k
  induction k with
  | zero =>
      intro x hx
      rw [pow_zero] at hx
      obtain ⟨a, rfl⟩ := List.length_eq_one.mp hx
      rw [fft_singleton, dft_singleton]
  | succ k ih =>
      intro x hx
      have hM : (0 : ℕ) < 2 ^ k := pow_pos (by norm_num) k
      have hlen : x.length = 2 * 2 ^ k := by rw [hx]; ring
      have h1 : 1 < x.length := by omega
      have h2 : x.length % 2 = 0 := by omega
      rw [fft_even_step h1 h2]
      have hE : (evens x).length = 2 ^ k := by rw [length_evens, hlen]; omega
      have hO : (odds x).length = 2 ^ k := by rw [length_odds, hlen]; omega
      rw [ih (evens x) hE, ih (odds x) hO, except_bind_ok, except_bind_ok]
      rw [← dft_even_split x (2 ^ k) hM hlen]

/-- Any input whose length is neither 0 nor a power of two makes `fft`
raise the size error, possibly after recursing into the even half. -/
theorem fft_error_of_not_pow2 (x : List ℂ) (h0 : x.length ≠ 0)
    (hnp : ∀ k : ℕ, x.length ≠ 2 ^ k) : fft x = .error errMsg := by
  by_cases h1 : x.length ≤ 1
  · exact absurd (by omega : x.length = 1) (by simpa using hnp 0)
  · by_cases h2 : x.length % 2 = 1
    · exact fft_odd (by omega) h2
    · rw [fft_even_step (by omega) (by omega)]
      have hv0 : (evens x).length ≠ 0 := by rw [length_evens]; omega
      have hvnp : ∀ k, (evens x).length ≠ 2 ^ k := by
        intro k hk
        rw [length_evens] at hk
        apply hnp (k + 1)
        rw [pow_succ]
        omega
      rw [fft_error_of_not_pow2 (evens x) hv0 hvnp, except_bind_error]
termination_by x.length
decreasing_by rw [length_evens]; omega

theorem fft_ok_length (x y : List ℂ) (h : fft x = .ok y) : y.length = x.length := by
  by_cases h0 : x.length = 0
  · rw [fft_base (by omega)] at h
    simp only [Except.ok.injEq] at h
    rw [← h]
  · by_cases hp : ∃ k, x.length = 2 ^ k
    · obtain ⟨k, hk⟩ := hp
      rw [fft_eq_dft k x hk] at h
      simp only [Except.ok.injEq] at h
      rw [← h, length_dft]
    · push_neg at hp
      rw [fft_error_of_not_pow2 x h0 hp] at h
      simp at h

theorem fft_ok_or_error (x : List ℂ) : (∃ y, fft x = .ok y) ∨ fft x = .error errMsg := by
  by_cases h0 : x.length = 0
  · exact Or.inl ⟨x, fft_base (by omega)⟩
  · by_cases hp : ∃ k, x.length = 2 ^ k
    · obtain ⟨k, hk⟩ := hp
      exact Or.inl ⟨dft x, fft_eq_dft k x hk⟩
    · push_neg at hp
      exact Or.inr (fft_error_of_not_pow2 x h0 hp)

theorem dft_entry_low (x : List ℂ) (M : ℕ) (hM : 0 < M) (hlen : x.length = 2 * M)
    (j : ℕ) (hj : j < M) :
    (dft x).getD j 0 =
      (dft (evens x)).getD j 0 +
        twExp ((j : ℂ) / ((2 * M : ℕ) : ℂ)) * (dft (odds x)).getD j 0 := by
  have hE : (evens x).length = M := by rw [length_evens, hlen]; omega
  have hO : (odds x).length = M := by rw [length_odds, hlen]; omega
  rw [dft_getD x j (by omega)]
  conv_lhs => rw [hlen]
  rw [dft_sum_split x M hM j]
  rw [dft_getD (evens x) j (by omega), hE]
  rw [dft_getD (odds x) j (by omega), hO]

theorem dft_entry_high (x : List ℂ) (M : ℕ) (hM : 0 < M) (hlen : x.length = 2 * M)
    (j : ℕ) (hj : j < M) :
    (dft x).getD (M + j) 0 =
      (dft (evens x)).getD j 0 -
        twExp ((j : ℂ) / ((2 * M : ℕ) : ℂ)) * (dft (odds x)).getD j 0 := by
  have hE : (evens x).length = M := by rw [length_evens, hlen]; omega
  have hO : (odds x).length = M := by rw [length_odds, hlen]; omega
  rw [dft_getD x (M + j) (by omega)]
  conv_lhs => rw [hlen]
  rw [dft_sum_split x M hM (M + j)]
  rw [twExp_half_shift j M hM]
  have hper : ∀ m ∈ Finset.range M,
      (evens x).getD m 0 * twExp (((M + j : ℕ) : ℂ) * (m : ℂ) / (M : ℂ)) =
        (evens x).getD m 0 * twExp ((j : ℂ) * (m : ℂ) / (M : ℂ)) := by
    intro m _
    rw [twExp_period j m M hM]
  have hper2 : ∀ m ∈ Finset.range M,
      (odds x).getD m 0 * twExp (((M + j : ℕ) : ℂ) * (m : ℂ) / (M : ℂ)) =
        (odds x).getD m 0 * twExp ((j : ℂ) * (m : ℂ) / (M : ℂ)) := by
    intro m _
    rw [twExp_period j m M hM]
  rw [Finset.sum_congr rfl hper, Finset.sum_congr rfl hper2]
  rw [dft_getD (evens x) j (by omega), hE]
  rw [dft_getD (odds x) j (by omega), hO]
  ring

theorem dft_linear (a b : ℂ) (x y : List ℂ) (hxy : x.length = y.length) :
    dft (List.zipWith (fun u v => a * u + b * v) x y) =
      List.zipWith (fun u v => a * u + b * v) (dft x) (dft y) := by
  have hlen : (List.zipWith (fun u v => a * u + b * v) x y).length = x.length := by
    rw [List.length_zipWith, hxy]
    omega
  apply list_ext_getD
  · rw [length_dft, hlen, List.length_zipWith, length_dft, length_dft, hxy]
    omega
  · intro j hj
    rw [length_dft, hlen] at hj
    rw [dft_getD _ j (by omega)]
    rw [hlen]
    rw [getD_zipWith _ _ _ x.length j (length_dft x) (by rw [length_dft, hxy]) hj]
    rw [dft_getD x j hj, dft_getD y j (hxy ▸ hj)]
    rw [← hxy]
    rw [Finset.mul_sum, Finset.mul_sum, ← Finset.sum_add_distrib]
    apply Finset.sum_congr rfl
    intro n hn
    rw [getD_zipWith _ _ _ x.length n rfl hxy.symm (Finset.mem_range.mp hn)]
    ring

theorem sum_range_add_split {β : Type} [AddCommMonoid β] (m n : ℕ) (f : ℕ → β) :
    ∑ i ∈ Finset.range (m + n), f i =
      (∑ i ∈ Finset.range m, f i) + ∑ i ∈ Finset.range n, f (m + i) := by
  induction n with
  | zero => simp
  | succ p ih =>
      rw [Nat.add_succ, Finset.sum_range_succ, Finset.sum_range_succ, ih, add_assoc]

theorem normSq_twExp_ofReal (r : ℝ) : Complex.normSq (twExp ((r : ℝ) : ℂ)) = 1 := by
  rw [twExp]
  have h : -2 * (Real.pi : ℂ) * Complex.I * ((r : ℝ) : ℂ) =
      ((-2 * Real.pi * r : ℝ) : ℂ) * Complex.I := by
    push_cast
    ring
  rw [h, Complex.normSq_eq_abs, Complex.abs_exp_ofReal_mul_I]
  norm_num

theorem normSq_twExp_div_nat (j N : ℕ) :
    Complex.normSq (twExp ((j : ℂ) / (N : ℂ))) = 1 := by
  have h : (j : ℂ) / (N : ℂ) = (((j : ℝ) / (N : ℝ) : ℝ) : ℂ) := by
    push_cast
    ring
  rw [h]
  exact normSq_twExp_ofReal _

theorem normSq_butterfly (e w o : ℂ) (hw : Complex.normSq w = 1) :
    Complex.normSq (e + w * o) + Complex.normSq (e - w * o) =
      2 * Complex.normSq e + 2 * Complex.normSq o := by
  rw [Complex.normSq_add, Complex.normSq_sub, Complex.normSq_mul, hw, one_mul]
  ring

theorem parseval_dft : ∀ (k : ℕ) (x : List ℂ), x.length = 2 ^ k →
    ∑ j ∈ Finset.range x.length, Complex.normSq ((dft x).getD j 0) =
      (x.length : ℝ) * ∑ n ∈ Finset.range x.length, Complex.normSq (x.getD n 0) := by
  intro k
  induction k with
  | zero =>
      intro x hx
      rw [pow_zero] at hx
      obtain ⟨a, rfl⟩ := List.length_eq_one.mp hx
      rw [dft_singleton]
      simp
  | succ k ih =>
      intro x hx
      have hM : (0 : ℕ) < 2 ^ k := pow_pos (by norm_num) k
      have hlen : x.length = 2 * 2 ^ k := by rw [hx]; ring
      have hE : (evens x).length = 2 ^ k := by rw [length_evens, hlen]; omega
      have hO : (odds x).length = 2 ^ k := by rw [length_odds, hlen]; omega
      have ihE := ih (evens x) hE
      have ihO := ih (odds x) hO
      rw [hE] at ihE
      rw [hO] at ihO
      rw [hlen]
      rw [two_mul, sum_range_add_split, ← two_mul]
      have hlow : ∀ j ∈ Finset.range (2 ^ k),
          Complex.normSq ((dft x).getD j 0) =
            Complex.normSq ((dft (evens x)).getD j 0 +
              twExp ((j : ℂ) / ((2 * 2 ^ k : ℕ) : ℂ)) * (dft (odds x)).getD j 0) := by
        intro j hj
        rw [dft_entry_low x (2 ^ k) hM hlen j (Finset.mem_range.mp hj)]
      have hhigh : ∀ j ∈ Finset.range (2 ^ k),
          Complex.normSq ((dft x).getD (2 ^ k + j) 0) =
            Complex.normSq ((dft (evens x)).getD j 0 -
              twExp ((j : ℂ) / ((2 * 2 ^ k : ℕ) : ℂ)) * (dft (odds x)).getD j 0) := by
        intro j hj
        rw [dft_entry_high x (2 ^ k) hM hlen j (Finset.mem_range.mp hj)]
      rw [Finset.sum_congr rfl hlow, Finset.sum_congr rfl hhigh]
      rw [← Finset.sum_add_distrib]
      have hpar : ∀ j ∈ Finset.range (2 ^ k),
          Complex.normSq ((dft (evens x)).getD j 0 +
              twExp ((j : ℂ) / ((2 * 2 ^ k : ℕ) : ℂ)) * (dft (odds x)).getD j 0) +
            Complex.normSq ((dft (evens x)).getD j 0 -
              twExp ((j : ℂ) / ((2 * 2 ^ k : ℕ) : ℂ)) * (dft (odds x)).getD j 0) =
            2 * Complex.normSq ((dft (evens x)).getD j 0) +
              2 * Complex.normSq ((dft (odds x)).getD j 0) := by
        intro j hj
        exact normSq_butterfly _ _ _ (normSq_twExp_div_nat j (2 * 2 ^ k))
      rw [Finset.sum_congr rfl hpar]
      rw [Finset.sum_add_distrib, ← Finset.mul_sum, ← Finset.mul_sum, ihE, ihO]
      have hsplit : ∑ n ∈ Finset.range (2 * 2 ^ k), Complex.normSq (x.getD n 0) =
          (∑ m ∈ Finset.range (2 ^ k), Complex.normSq ((evens x).getD m 0)) +
            ∑ m ∈ Finset.range (2 ^ k), Complex.normSq ((odds x).getD m 0) := by
        rw [sum_range_two_mul]
        congr 1
        · apply Finset.sum_congr rfl
          intro m _
          rw [getD_evens]
        · apply Finset.sum_congr rfl
          intro m _
          rw [getD_odds]
      rw [hsplit]
      push_cast
      ring

theorem twExp_inv_two : twExp (2⁻¹ : ℂ) = -1 := by
  have h : (2⁻¹ : ℂ) = 1 / 2 := by norm_num
  rw [h, twExp_half]

theorem fft_two (a b : ℂ) : fft [a, b] = Except.ok [a + b, a - b] := by
  have hl0 : ([a, b] : List ℂ).length = 2 := rfl
  rw [fft_even_step (by rw [hl0]; norm_num) (by rw [hl0])]
  have he : evens [a, b] = [a] := rfl
  have ho : odds [a, b] = [b] := rfl
  rw [he, ho, fft_singleton, fft_singleton, except_bind_ok, except_bind_ok]
  have hl : ([a, b] : List ℂ).length = 2 := rfl
  rw [hl]
  have h22 : (2 : ℕ) / 2 = 1 := rfl
  rw [h22]
  have hfac : (factor 2).take 1 =
      [Complex.exp (-2 * (Real.pi : ℂ) * Complex.I * ((0 : ℕ) : ℂ) / ((2 : ℕ) : ℂ))] := rfl
  rw [hfac]
  norm_num [Complex.exp_zero]

theorem fft_four_impulse : fft [(1 : ℂ), 0, 0, 0] = Except.ok [1, 1, 1, 1] := by
  rw [fft_even_step (by decide) (by decide)]
  have he : evens [(1 : ℂ), 0, 0, 0] = [1, 0] := rfl
  have ho : odds [(1 : ℂ), 0, 0, 0] = [0, 0] := rfl
  rw [he, ho, fft_two, fft_two, except_bind_ok, except_bind_ok]
  have hl : ([(1 : ℂ), 0, 0, 0]).length = 4 := rfl
  rw [hl]
  have h42 : (4 : ℕ) / 2 = 2 := rfl
  rw [h42]
  have hfac : (factor 4).take 2 =
      [Complex.exp (-2 * (Real.pi : ℂ) * Complex.I * ((0 : ℕ) : ℂ) / ((4 : ℕ) : ℂ)),
       Complex.exp (-2 * (Real.pi : ℂ) * Complex.I * ((1 : ℕ) : ℂ) / ((4 : ℕ) : ℂ))] := rfl
  rw [hfac]
  norm_num [Complex.exp_zero]

theorem fft_four_const : fft [(1 : ℂ), 1, 1, 1] = Except.ok [4, 0, 0, 0] := by
  rw [fft_even_step (by decide) (by decide)]
  have he : evens [(1 : ℂ), 1, 1, 1] = [1, 1] := rfl
  have ho : odds [(1 : ℂ), 1, 1, 1] = [1, 1] := rfl
  rw [he, ho, fft_two, except_bind_ok, except_bind_ok]
  have hl : ([(1 : ℂ), 1, 1, 1]).length = 4 := rfl
  rw [hl]
  have h42 : (4 : ℕ) / 2 = 2 := rfl
  rw [h42]
  have hfac : (factor 4).take 2 =
      [Complex.exp (-2 * (Real.pi : ℂ) * Complex.I * ((0 : ℕ) : ℂ) / ((4 : ℕ) : ℂ)),
       Complex.exp (-2 * (Real.pi : ℂ) * Complex.I * ((1 : ℕ) : ℂ) / ((4 : ℕ) : ℂ))] := rfl
  rw [hfac]
  norm_num [Complex.exp_zero]

theorem dft_getD_raw (x : List ℂ) (j : ℕ) (hj : j < x.length) :
    (dft x).getD j 0 =
      ∑ n ∈ Finset.range x.length,
        x.getD n 0 *
          Complex.exp (-2 * (Real.pi : ℂ) * Complex.I * (j : ℂ) * (n : ℂ) / (x.length : ℂ)) := by
  rw [List.getD_eq_getElem _ _ (by rwa [length_dft])]
  simp only [dft, List.getElem_map, List.getElem_range]

/-! ## Claim theorems -/

/-- C1: for every sequence `x` of `N` complex samples with `N = 2^k` a power
of two, `fft x` succeeds and returns a sequence `X` of `N` values with
`X[j] = Σ_{n=0}^{N-1} x[n]·exp(-2πi·j·n/N)` for every `j < N` — the forward,
unnormalized discrete Fourier transform. -/
theorem fft_computes_dft (k : ℕ) (x : List ℂ) (h : x.length = 2 ^ k) :
    ∃ X, fft x = Except.ok X ∧ X.length = x.length ∧
      ∀ j < x.length,
        X.getD j 0 =
          ∑ n ∈ Finset.range x.length,
            x.getD n 0 *
              Complex.exp (-2 * (Real.pi : ℂ) * Complex.I * (j : ℂ) * (n : ℂ) / (x.length : ℂ)) :=
  ⟨dft x, fft_eq_dft k x h, length_dft x, fun j hj => dft_getD_raw x j hj⟩

theorem fft_computes_dft_witness :
    ∃ X, fft [(1 : ℂ)] = Except.ok X ∧ X.length = ([(1 : ℂ)]).length ∧
      ∀ j < ([(1 : ℂ)]).length,
        X.getD j 0 =
          ∑ n ∈ Finset.range ([(1 : ℂ)]).length,
            ([(1 : ℂ)]).getD n 0 *
              Complex.exp (-2 * (Real.pi : ℂ) * Complex.I * (j : ℂ) * (n : ℂ) /
                (([(1 : ℂ)]).length : ℂ)) :=
  fft_computes_dft 0 [1] rfl

/-- C2: any input of odd length greater than 1 makes `fft` return the
size-validation error immediately (the odd branch fires before any recursive
call or combine step), and the error is the whole result: no partial output. -/
theorem fft_odd_length_error (x : List ℂ) (h2 : x.length % 2 = 1) (h1 : 1 < x.length) :
    fft x = Except.error errMsg :=
  fft_odd h1 h2

theorem fft_odd_length_error_witness : fft [(1 : ℂ), 1, 1] = Except.error errMsg :=
  fft_odd_length_error [1, 1, 1] (by decide) (by decide)

/-- C3: whenever `fft` returns a result its length equals the input length,
and on every power-of-two length `2^k` input it does return a result of that
same length. -/
theorem fft_length_preserved :
    (∀ x y : List ℂ, fft x = Except.ok y → y.length = x.length) ∧
      ∀ (k : ℕ) (x : List ℂ), x.length = 2 ^ k →
        ∃ y, fft x = Except.ok y ∧ y.length = x.length :=
  ⟨fft_ok_length, fun k x hk => ⟨dft x, fft_eq_dft k x hk, length_dft x⟩⟩

theorem fft_length_preserved_witness :
    ([(1 : ℂ)]).length = ([(1 : ℂ)]).length ∧
      ∃ y, fft [(1 : ℂ), 1] = Except.ok y ∧ y.length = ([(1 : ℂ), 1]).length :=
  ⟨fft_length_preserved.1 [1] [1] (fft_singleton 1), fft_length_preserved.2 1 [1, 1] rfl⟩

/-- C4: for lengths 0 and 1 the transform is the identity: the empty list and
any singleton `[c]` are returned unchanged. -/
theorem fft_identity_base :
    fft ([] : List ℂ) = Except.ok [] ∧ ∀ c : ℂ, fft [c] = Except.ok [c] :=
  ⟨fft_nil, fft_singleton⟩

/-- C5: concrete small-size values: `fft [a, b] = [a+b, a−b]` for all complex
`a`, `b`; `fft [1,0,0,0] = [1,1,1,1]`; `fft [1,1,1,1] = [4,0,0,0]`. -/
theorem fft_small_cases :
    (∀ a b : ℂ, fft [a, b] = Except.ok [a + b, a - b]) ∧
      fft [(1 : ℂ), 0, 0, 0] = Except.ok [1, 1, 1, 1] ∧
      fft [(1 : ℂ), 1, 1, 1] = Except.ok [4, 0, 0, 0] :=
  ⟨fft_two, fft_four_impulse, fft_four_const⟩

/-- C6: linearity over exact complex arithmetic: for scalars `a`, `b` and
equal power-of-two-length inputs `x`, `y` with `fft x = X` and `fft y = Y`,
`fft (a·x + b·y) = a·X + b·Y` (pointwise combination). -/
theorem fft_linear_claim (a b : ℂ) (k : ℕ) (x y X Y : List ℂ)
    (hx : x.length = 2 ^ k) (hy : y.length = 2 ^ k)
    (hX : fft x = Except.ok X) (hY : fft y = Except.ok Y) :
    fft (List.zipWith (fun u v => a * u + b * v) x y) =
      Except.ok (List.zipWith (fun u v => a * u + b * v) X Y) := by
  have hXd : X = dft x := by
    rw [fft_eq_dft k x hx] at hX
    simp only [Except.ok.injEq] at hX
    exact hX.symm
  have hYd : Y = dft y := by
    rw [fft_eq_dft k y hy] at hY
    simp only [Except.ok.injEq] at hY
    exact hY.symm
  have hlen : (List.zipWith (fun u v => a * u + b * v) x y).length = 2 ^ k := by
    rw [List.length_zipWith, hx, hy]
    omega
  rw [fft_eq_dft k _ hlen, dft_linear a b x y (by rw [hx, hy]), hXd, hYd]

theorem fft_linear_claim_witness :
    fft (List.zipWith (fun u v => (1 : ℂ) * u + 1 * v) [1] [1]) =
      Except.ok (List.zipWith (fun u v => (1 : ℂ) * u + 1 * v) [1] [1]) :=
  fft_linear_claim 1 1 0 [1] [1] [1] [1] rfl rfl (fft_singleton 1) (fft_singleton 1)

/-- C7: Parseval identity over exact complex arithmetic: for any input of
power-of-two length `N`, the sum of squared magnitudes of the `fft` output
equals `N` times the sum of squared magnitudes of the input. -/
theorem fft_parseval (k : ℕ) (x X : List ℂ) (hx : x.length = 2 ^ k)
    (hX : fft x = Except.ok X) :
    ∑ j ∈ Finset.range X.length, Complex.normSq (X.getD j 0) =
      (x.length : ℝ) * ∑ n ∈ Finset.range x.length, Complex.normSq (x.getD n 0) := by
  have hXd : X = dft x := by
    rw [fft_eq_dft k x hx] at hX
    simp only [Except.ok.injEq] at hX
    exact hX.symm
  rw [hXd, length_dft]
  exact parseval_dft k x hx

theorem fft_parseval_witness :
    ∑ j ∈ Finset.range ([(1 : ℂ)]).length, Complex.normSq (([(1 : ℂ)]).getD j 0) =
      (([(1 : ℂ)]).length : ℝ) *
        ∑ n ∈ Finset.range ([(1 : ℂ)]).length, Complex.normSq (([(1 : ℂ)]).getD n 0) :=
  fft_parseval 0 [1] [1] rfl (fft_singleton 1)

/-- C8: lazy partial validation: for even length greater than 1 that is not a
power of two, the top-level check passes, `fft` recurses, the even half
already fails with the size error at a deeper level, and the whole call
returns the error — never a result. -/
theorem fft_even_not_pow2_error (x : List ℂ) (h2 : x.length % 2 = 0)
    (h1 : 1 < x.length) (hnp : ∀ k : ℕ, x.length ≠ 2 ^ k) :
    fft x = Except.error errMsg ∧ fft (evens x) = Except.error errMsg := by
  have hv0 : (evens x).length ≠ 0 := by rw [length_evens]; omega
  have hvnp : ∀ k, (evens x).length ≠ 2 ^ k := by
    intro k hk
    rw [length_evens] at hk
    apply hnp (k + 1)
    rw [pow_succ]
    omega
  exact ⟨fft_error_of_not_pow2 x (by omega) hnp, fft_error_of_not_pow2 (evens x) hv0 hvnp⟩

theorem fft_even_not_pow2_error_witness :
    fft [(1 : ℂ), 1, 1, 1, 1, 1] = Except.error errMsg ∧
      fft (evens [(1 : ℂ), 1, 1, 1, 1, 1]) = Except.error errMsg :=
  fft_even_not_pow2_error [1, 1, 1, 1, 1, 1] (by decide) (by decide)
    (fun k hk => by
      have hl : ([(1 : ℂ), 1, 1, 1, 1, 1]).length = 6 := rfl
      rw [hl] at hk
      rcases k with _ | _ | _ | k
      · norm_num at hk
      · norm_num at hk
      · norm_num at hk
      · have h8 : 2 ^ (k + 3) = 8 * 2 ^ k := by ring
        have hp : 0 < 2 ^ k := pow_pos (by norm_num) k
        omega)

/-- C9: on power-of-two length input the error branch is unreachable: both
halves again have power-of-two length, and `fft` runs to completion returning
a complete (full-length) sequence, never the error. -/
theorem fft_pow2_success (k : ℕ) (x : List ℂ) (hx : x.length = 2 ^ k) :
    (∃ y, fft x = Except.ok y ∧ y.length = x.length) ∧
      (1 < x.length →
        (evens x).length = 2 ^ (k - 1) ∧ (odds x).length = 2 ^ (k - 1)) := by
  constructor
  · exact ⟨dft x, fft_eq_dft k x hx, length_dft x⟩
  · intro h1
    rcases k with _ | k
    · rw [pow_zero] at hx
      omega
    · rw [length_evens, length_odds, hx]
      have h2 : 2 ^ (k + 1) = 2 * 2 ^ k := by ring
      have hp : 0 < 2 ^ k := pow_pos (by norm_num) k
      rw [h2]
      simp only [Nat.add_sub_cancel]
      omega

theorem fft_pow2_success_witness :
    ((∃ y, fft [(1 : ℂ), 1] = Except.ok y ∧ y.length = ([(1 : ℂ), 1]).length) ∧
      (1 < ([(1 : ℂ), 1]).length →
        (evens [(1 : ℂ), 1]).length = 2 ^ (1 - 1) ∧
          (odds [(1 : ℂ), 1]).length = 2 ^ (1 - 1))) :=
  fft_pow2_success 1 [1, 1] rfl

/-- C10: `fft` terminates on every finite input: each recursive call acts on
a strictly shorter list (both stride halves are shorter whenever the length
exceeds 1), and every input yields either a result or the size error. -/
theorem fft_terminates :
    (∀ x : List ℂ, 1 < x.length →
        (evens x).length < x.length ∧ (odds x).length < x.length) ∧
      ∀ x : List ℂ, (∃ y, fft x = Except.ok y) ∨ fft x = Except.error errMsg := by
  constructor
  · intro x h1
    rw [length_evens, length_odds]
    omega
  · exact fft_ok_or_error

theorem fft_terminates_witness :
    ((evens [(1 : ℂ), 1]).length < ([(1 : ℂ), 1]).length ∧
        (odds [(1 : ℂ), 1]).length < ([(1 : ℂ), 1]).length) ∧
      ((∃ y, fft ([] : List ℂ) = Except.ok y) ∨ fft ([] : List ℂ) = Except.error errMsg) :=
  ⟨fft_terminates.1 [1, 1] (by decide), fft_terminates.2 []⟩

end FFT
